import Mathlib

/-!
Verification of the `DomainRelationshipMatrix` component
(src/unnamed/part_007): domain extraction, matrix construction,
color-intensity computation and the rendering guards.

JS numbers are modelled as rationals (ℚ); the NaN that
`Math.max(...[])` / `Math.min(...[])` would produce on an empty value
list is modelled by `Option` (`none` = NaN / ±Infinity propagation).
-/

namespace DomainMatrix

/-- A relationship record as consumed by the component:
`{ source, target, value }`. -/
structure Relation where
  source : String
  target : String
  value : ℚ
deriving DecidableEq, Repr

/-- The order in which `data.forEach(relation => { allDomains.add(relation.source);
allDomains.add(relation.target); })` offers names to the `Set`. -/
def scanList (data : List Relation) : List String :=
  data.flatMap fun r => [r.source, r.target]

/-- One `Set.add`: JS `Set` keeps insertion order and ignores repeats. -/
def insertSeen (acc : List String) (x : String) : List String :=
  if x ∈ acc then acc else acc ++ [x]

/-- `Array.from(allDomains)`: the distinct domain names in first-seen order. -/
def domainsOf (data : List Relation) : List String :=
  (scanList data).foldl insertSeen []

/-- JS `Array.prototype.indexOf`: index of the first occurrence, `-1` when
absent. -/
def jsIndexOf (l : List String) (x : String) : Int :=
  match l with
  | [] => -1
  | a :: as =>
    if a = x then 0
    else
      let r := jsIndexOf as x
      if r = -1 then -1 else r + 1

/-- `data.map(r => r.value)`. -/
def values (data : List Relation) : List ℚ :=
  data.map Relation.value

/-- `Math.max(...l)`: `none` models the `-Infinity` of an empty argument
list. -/
def jsMax (l : List ℚ) : Option ℚ :=
  match l with
  | [] => none
  | x :: xs => some (xs.foldl max x)

/-- `Math.min(...l)`: `none` models the `+Infinity` of an empty argument
list. -/
def jsMin (l : List ℚ) : Option ℚ :=
  match l with
  | [] => none
  | x :: xs => some (xs.foldl min x)

/-- `getColorIntensity(value)`: min/max over ALL record values, fallback 50
when the range is 0, linear interpolation otherwise.  `none` models the NaN
produced when `data` is empty. -/
def getColorIntensity (data : List Relation) (value : ℚ) : Option ℚ :=
  match jsMax (values data), jsMin (values data) with
  | some maxValue, some minValue =>
    let range := maxValue - minValue
    some (if range = 0 then 50 else ((value - minValue) / range) * 100)
  | _, _ => none

/-- JS `Math.round`: half-up, `⌊x + 1/2⌋`. -/
def jsRound (q : ℚ) : Int :=
  ⌊q + 1 / 2⌋

/-- `getCellColor(value)`: neutral gray for 0, otherwise a blue gradient
class built from the intensity.  A `none` intensity would interpolate the
string `NaN`. -/
def getCellColor (data : List Relation) (value : ℚ) : String :=
  if value = 0 then "bg-gray-100 dark:bg-gray-800"
  else
    match getColorIntensity data value with
    | some intensity =>
      "bg-blue-" ++ toString (jsRound (intensity / 100 * 9) * 100)
        ++ " border border-blue-"
        ++ toString (min (jsRound (intensity / 100 * 9) * 100 + 100) 900)
    | none => "bg-blue-NaN border border-blue-NaN"

/-- `getTextColor(value)`: white text above 50% intensity.  `NaN > 50` is
false in JS, so a `none` intensity takes the gray branch. -/
def getTextColor (data : List Relation) (value : ℚ) : String :=
  match getColorIntensity data value with
  | some intensity =>
    if intensity > 50 then "text-white" else "text-gray-900 dark:text-white"
  | none => "text-gray-900 dark:text-white"

/-- One step of the fill loop: `mat[sourceIndex][targetIndex] = relation.value`
under the guard `sourceIndex !== -1 && targetIndex !== -1`. -/
def updateMat (D : List String) (mat : List (List ℚ)) (r : Relation) :
    List (List ℚ) :=
  let sourceIndex := jsIndexOf D r.source
  let targetIndex := jsIndexOf D r.target
  if sourceIndex ≠ -1 ∧ targetIndex ≠ -1 then
    mat.set sourceIndex.toNat
      ((mat.getD sourceIndex.toNat []).set targetIndex.toNat r.value)
  else mat

/-- The `matrix` memo: `domains.map(() => Array(domains.length).fill(0))`
then the fill loop over `data`. -/
def mkCells (data : List Relation) : List (List ℚ) :=
  let D := domainsOf data
  data.foldl (updateMat D) (D.map fun _ => List.replicate D.length (0 : ℚ))

/-- The pair `{ domains, cells }` the component derives from `data`. -/
structure MatrixData where
  domains : List String
  cells : List (List ℚ)
deriving DecidableEq, Repr

def buildMatrix (data : List Relation) : MatrixData :=
  ⟨domainsOf data, mkCells data⟩

/-- Read a cell, out-of-range reads defaulting to 0. -/
def cellAt (mat : List (List ℚ)) (i j : Nat) : ℚ :=
  (mat.getD i []).getD j 0

/-- What the component returns: the empty-state `<div>` or the table. -/
inductive Rendered where
  | emptyState : Rendered
  | table : List String → List (List ℚ) → Rendered
deriving DecidableEq, Repr

/-- The early return `if (!data || data.length === 0 || domains.length === 0)`
followed by the table over `domains` and `matrix`. -/
def render (data : List Relation) : Rendered :=
  if data = [] ∨ domainsOf data = [] then Rendered.emptyState
  else Rendered.table (domainsOf data) (mkCells data)

/-- The arguments one cell's class string passes to `getColorIntensity`:
`getCellColor` calls it unless the value is 0, then `getTextColor` calls it
unconditionally. -/
def cellCalls (v : ℚ) : List ℚ :=
  (if v = 0 then [] else [v]) ++ [v]

/-- Every argument `getColorIntensity` receives while rendering `data`,
in render order; empty when the empty state short-circuits the table. -/
def intensityCalls (data : List Relation) : List ℚ :=
  match render data with
  | Rendered.emptyState => []
  | Rendered.table _ cells => cells.flatMap fun row => row.flatMap cellCalls

/-- The arguments `getCellColor` alone passes to `getColorIntensity` while
rendering: the non-zero cell values. -/
def cellColorCalls (data : List Relation) : List ℚ :=
  match render data with
  | Rendered.emptyState => []
  | Rendered.table _ cells => cells.flatMap fun row => row.filter (fun v => ¬ v = 0)

/-- The non-zero values of the rendered matrix (the spec's "displayed
non-zero values"). -/
def displayedNonZero (data : List Relation) : List ℚ :=
  (mkCells data).flatMap fun row => row.filter (fun v => ¬ v = 0)

/-- Reference definition of `cellIntensity`, following the spec's words:
min and max over all displayed non-zero values; 50 when they coincide,
`(value - min) / (max - min) * 100` otherwise. -/
def specCellIntensity (data : List Relation) (value : ℚ) : Option ℚ :=
  match jsMax (displayedNonZero data), jsMin (displayedNonZero data) with
  | some maxValue, some minValue =>
    some (if maxValue = minValue then 50
          else ((value - minValue) / (maxValue - minValue)) * 100)
  | _, _ => none

/-- Reference definition of first-seen deduplication: keep each name's first
occurrence, drop the later ones. -/
def firstSeenDedup : List String → List String
  | [] => []
  | x :: xs => x :: firstSeenDedup (xs.filter fun y => y ≠ x)
termination_by l => l.length
decreasing_by
  simp only [List.length_cons]
  exact Nat.lt_succ_of_le (List.length_filter_le _ _)

/-- The value the last record with pair `(s, t)` carries, 0 when none does:
the overwrite semantics of the fill loop. -/
def lastPairValue (data : List Relation) (s t : String) : ℚ :=
  data.foldl (fun acc r => if r.source = s ∧ r.target = t then r.value else acc) 0

/-- The fill step without the `!== -1` guard. -/
def updateMatUnguarded (D : List String) (mat : List (List ℚ)) (r : Relation) :
    List (List ℚ) :=
  let sourceIndex := jsIndexOf D r.source
  let targetIndex := jsIndexOf D r.target
  mat.set sourceIndex.toNat
    ((mat.getD sourceIndex.toNat []).set targetIndex.toNat r.value)

/-- The matrix built with the unguarded fill step. -/
def mkCellsUnguarded (data : List Relation) : List (List ℚ) :=
  let D := domainsOf data
  data.foldl (updateMatUnguarded D) (D.map fun _ => List.replicate D.length (0 : ℚ))

/-! ### Helper lemmas: the domain list -/

theorem mem_insertSeen {acc : List String} {x y : String} :
    x ∈ insertSeen acc y ↔ x ∈ acc ∨ x = y := by
  unfold insertSeen
  by_cases h : y ∈ acc
  · rw [if_pos h]
    constructor
    · exact Or.inl
    · rintro (hx | rfl)
      · exact hx
      · exact h
  · rw [if_neg h]
    simp

theorem mem_foldl_insertSeen (l : List String) :
    ∀ acc x, x ∈ l.foldl insertSeen acc ↔ x ∈ acc ∨ x ∈ l := by
  induction l with
  | nil => simp
  | cons a as ih =>
    intro acc x
    simp only [List.foldl_cons, ih, mem_insertSeen, List.mem_cons]
    tauto

theorem nodup_foldl_insertSeen (l : List String) :
    ∀ acc, acc.Nodup → (l.foldl insertSeen acc).Nodup := by
  induction l with
  | nil => intro acc h; simpa using h
  | cons a as ih =>
    intro acc h
    refine ih _ ?_
    unfold insertSeen
    by_cases ha : a ∈ acc
    · simpa [ha] using h
    · rw [if_neg ha, List.nodup_append]
      refine ⟨h, List.nodup_singleton a, ?_⟩
      intro x hx hxa
      rw [List.mem_singleton] at hxa
      exact ha (hxa ▸ hx)

theorem foldl_insertSeen_eq_firstSeenDedup (l : List String) :
    ∀ acc, l.foldl insertSeen acc
      = acc ++ firstSeenDedup (l.filter fun y => decide (y ∉ acc)) := by
  induction l with
  | nil => intro acc; simp [firstSeenDedup]
  | cons a as ih =>
    intro acc
    by_cases ha : a ∈ acc
    · have hins : insertSeen acc a = acc := by simp [insertSeen, ha]
      simp only [List.foldl_cons, hins, List.filter_cons, ha]
      simpa using ih acc
    · have hins : insertSeen acc a = acc ++ [a] := by simp [insertSeen, ha]
      have hcons : ((a :: as).filter fun y => decide (y ∉ acc))
          = a :: as.filter fun y => decide (y ∉ acc) := by
        simp [List.filter_cons, ha]
      have hfil : (as.filter fun y => decide (y ∉ acc ++ [a]))
          = (as.filter fun y => decide (y ∉ acc)).filter fun y => decide (y ≠ a) := by
        rw [List.filter_filter]
        apply List.filter_congr
        intro y _
        by_cases h1 : y ∈ acc <;> by_cases h2 : y = a <;> simp [h1, h2]
      rw [List.foldl_cons, hins, ih (acc ++ [a]), hcons, firstSeenDedup, hfil]
      simp

theorem domainsOf_eq_firstSeenDedup (data : List Relation) :
    domainsOf data = firstSeenDedup (scanList data) := by
  have h := foldl_insertSeen_eq_firstSeenDedup (scanList data) []
  simpa [domainsOf] using h

theorem nodup_domainsOf (data : List Relation) : (domainsOf data).Nodup :=
  nodup_foldl_insertSeen _ _ List.nodup_nil

theorem mem_domainsOf {data : List Relation} {x : String} :
    x ∈ domainsOf data ↔ x ∈ scanList data := by
  simpa [domainsOf] using mem_foldl_insertSeen (scanList data) [] x

theorem source_mem_domainsOf {data : List Relation} {r : Relation} (h : r ∈ data) :
    r.source ∈ domainsOf data := by
  rw [mem_domainsOf]
  simp only [scanList, List.mem_flatMap]
  exact ⟨r, h, by simp⟩

theorem target_mem_domainsOf {data : List Relation} {r : Relation} (h : r ∈ data) :
    r.target ∈ domainsOf data := by
  rw [mem_domainsOf]
  simp only [scanList, List.mem_flatMap]
  exact ⟨r, h, by simp⟩

/-! ### Helper lemmas: `jsIndexOf` -/

theorem jsIndexOf_spec {l : List String} {x : String} (h : x ∈ l) :
    jsIndexOf l x ≠ -1 ∧ 0 ≤ jsIndexOf l x ∧ (jsIndexOf l x).toNat < l.length
      ∧ l.getD (jsIndexOf l x).toNat "" = x := by
  induction l with
  | nil => cases h
  | cons a as ih =>
    by_cases hax : a = x
    · subst hax
      simp [jsIndexOf]
    · have hx : x ∈ as := by
        rcases List.mem_cons.mp h with h' | h'
        · exact absurd h'.symm hax
        · exact h'
      obtain ⟨hne, hnn, hlt, hget⟩ := ih hx
      have hr : jsIndexOf (a :: as) x = jsIndexOf as x + 1 := by
        simp [jsIndexOf, hax, hne]
      refine ⟨by omega, by omega, ?_, ?_⟩
      · rw [hr]
        have : (jsIndexOf as x + 1).toNat = (jsIndexOf as x).toNat + 1 := by omega
        simp [this, List.length_cons]
        omega
      · rw [hr]
        have : (jsIndexOf as x + 1).toNat = (jsIndexOf as x).toNat + 1 := by omega
        simpa [this] using hget

theorem jsIndexOf_getD {l : List String} (hnd : l.Nodup) :
    ∀ i, i < l.length → jsIndexOf l (l.getD i "") = i := by
  induction l with
  | nil => intro i hi; simp at hi
  | cons a as ih =>
    intro i hi
    cases i with
    | zero => simp [jsIndexOf]
    | succ n =>
      have hn : n < as.length := by simpa using hi
      have hmem : as.getD n "" ∈ as := by
        have : as.getD n "" = as.get ⟨n, hn⟩ := by
          simp [List.getD, List.getElem?_eq_getElem, hn]
        rw [this]
        exact List.get_mem as n hn
      have hne : a ≠ as.getD n "" := by
        intro hcontra
        exact (List.nodup_cons.mp hnd).1 (hcontra ▸ hmem)
      have hrec := ih (List.nodup_cons.mp hnd).2 n hn
      simp only [List.getD_cons_succ]
      have hstep : ∀ x : String, a ≠ x → jsIndexOf (a :: as) x
          = if jsIndexOf as x = -1 then -1 else jsIndexOf as x + 1 := by
        intro x hx
        rw [jsIndexOf, if_neg hx]
      rw [hstep _ hne, hrec]
      have hn1 : (n : ℤ) ≠ -1 := by omega
      rw [if_neg hn1]
      push_cast
      ring

/-! ### Helper lemmas: `getD` -/

theorem getD_set_eq {α : Type} (l : List α) (i : Nat) (a d : α) (h : i < l.length) :
    (l.set i a).getD i d = a := by
  simp [List.getD, List.getElem?_set, h]

theorem getD_set_ne {α : Type} (l : List α) {i j : Nat} (a d : α) (h : i ≠ j) :
    (l.set i a).getD j d = l.getD j d := by
  simp [List.getD, List.getElem?_set, h]

theorem getD_mem {α : Type} (l : List α) (i : Nat) (d : α) (h : i < l.length) :
    l.getD i d ∈ l := by
  have : l.getD i d = l.get ⟨i, h⟩ := by
    simp [List.getD, List.getElem?_eq_getElem, h]
  rw [this]
  exact List.get_mem l i h

theorem getD_of_length_le {α : Type} (l : List α) (i : Nat) (d : α)
    (h : l.length ≤ i) : l.getD i d = d := by
  simp [List.getD, List.getElem?_eq_none h]

/-! ### Helper lemmas: `jsMax` / `jsMin` -/

theorem le_foldl_max (xs : List ℚ) :
    ∀ x a, a ∈ x :: xs → a ≤ xs.foldl max x := by
  induction xs with
  | nil =>
    intro x a ha
    have : a = x := by simpa using ha
    simp [this]
  | cons y ys ih =>
    intro x a ha
    rcases List.mem_cons.mp ha with rfl | ha'
    · exact le_trans (le_max_left a y)
        (ih (max a y) (max a y) (List.mem_cons_self _ _))
    · rcases List.mem_cons.mp ha' with rfl | ha''
      · exact le_trans (le_max_right x a)
          (ih (max x a) (max x a) (List.mem_cons_self _ _))
      · exact ih (max x y) a (List.mem_cons_of_mem _ ha'')

theorem foldl_max_mem (xs : List ℚ) :
    ∀ x, xs.foldl max x ∈ x :: xs := by
  induction xs with
  | nil => intro x; simp
  | cons y ys ih =>
    intro x
    have h := ih (max x y)
    rcases List.mem_cons.mp h with h' | h'
    · rcases max_choice x y with hc | hc <;> rw [List.foldl_cons, h', hc] <;> simp
    · simp only [List.foldl_cons]
      exact List.mem_cons_of_mem _ (List.mem_cons_of_mem _ h')

theorem foldl_min_le (xs : List ℚ) :
    ∀ x a, a ∈ x :: xs → xs.foldl min x ≤ a := by
  induction xs with
  | nil =>
    intro x a ha
    have : a = x := by simpa using ha
    simp [this]
  | cons y ys ih =>
    intro x a ha
    rcases List.mem_cons.mp ha with rfl | ha'
    · exact le_trans (ih (min a y) (min a y) (List.mem_cons_self _ _))
        (min_le_left a y)
    · rcases List.mem_cons.mp ha' with rfl | ha''
      · exact le_trans (ih (min x a) (min x a) (List.mem_cons_self _ _))
          (min_le_right x a)
      · exact ih (min x y) a (List.mem_cons_of_mem _ ha'')

theorem foldl_min_mem (xs : List ℚ) :
    ∀ x, xs.foldl min x ∈ x :: xs := by
  induction xs with
  | nil => intro x; simp
  | cons y ys ih =>
    intro x
    have h := ih (min x y)
    rcases List.mem_cons.mp h with h' | h'
    · rcases min_choice x y with hc | hc <;> rw [List.foldl_cons, h', hc] <;> simp
    · simp only [List.foldl_cons]
      exact List.mem_cons_of_mem _ (List.mem_cons_of_mem _ h')

theorem jsMax_spec {l : List ℚ} (h : l ≠ []) :
    ∃ M, jsMax l = some M ∧ M ∈ l ∧ ∀ a ∈ l, a ≤ M := by
  match l, h with
  | x :: xs, _ =>
    exact ⟨xs.foldl max x, rfl, foldl_max_mem xs x, fun a ha => le_foldl_max xs x a ha⟩

theorem jsMin_spec {l : List ℚ} (h : l ≠ []) :
    ∃ m, jsMin l = some m ∧ m ∈ l ∧ ∀ a ∈ l, m ≤ a := by
  match l, h with
  | x :: xs, _ =>
    exact ⟨xs.foldl min x, rfl, foldl_min_mem xs x, fun a ha => foldl_min_le xs x a ha⟩

/-! ### Helper lemmas: `getColorIntensity` -/

theorem getColorIntensity_eq {data : List Relation} {M m : ℚ}
    (hM : jsMax (values data) = some M) (hm : jsMin (values data) = some m)
    (v : ℚ) :
    getColorIntensity data v
      = some (if M - m = 0 then 50 else ((v - m) / (M - m)) * 100) := by
  unfold getColorIntensity
  rw [hM, hm]

theorem getColorIntensity_of_empty {data : List Relation} (h : values data = [])
    (v : ℚ) : getColorIntensity data v = none := by
  unfold getColorIntensity
  rw [h]
  rfl

theorem getColorIntensity_bounds {data : List Relation} {v : ℚ}
    (hv : v ∈ values data) :
    ∃ i, getColorIntensity data v = some i ∧ 0 ≤ i ∧ i ≤ 100 := by
  have hne : values data ≠ [] := List.ne_nil_of_mem hv
  obtain ⟨M, hM, hMmem, hMub⟩ := jsMax_spec hne
  obtain ⟨m, hm, hmmem, hmlb⟩ := jsMin_spec hne
  rw [getColorIntensity_eq hM hm v]
  by_cases hr : M - m = 0
  · exact ⟨50, by rw [if_pos hr], by norm_num, by norm_num⟩
  · have hmM : m ≤ M := hmlb M hMmem
    have hrange : 0 < M - m := lt_of_le_of_ne (by linarith) (Ne.symm hr)
    have h1 : 0 ≤ (v - m) / (M - m) :=
      div_nonneg (by linarith [hmlb v hv]) (le_of_lt hrange)
    have h2 : (v - m) / (M - m) ≤ 1 :=
      (div_le_one hrange).mpr (by linarith [hMub v hv])
    refine ⟨(v - m) / (M - m) * 100, by rw [if_neg hr], by linarith, by linarith⟩

/-! ### Helper lemmas: the fill loop -/

theorem jsIndexOf_of_not_mem {l : List String} {x : String} (h : x ∉ l) :
    jsIndexOf l x = -1 := by
  induction l with
  | nil => rfl
  | cons a as ih =>
    have hax : a ≠ x := fun hc => h (hc ▸ List.mem_cons_self a as)
    have has : x ∉ as := fun hc => h (List.mem_cons_of_mem a hc)
    rw [jsIndexOf, if_neg hax]
    simp [ih has]

theorem mem_of_jsIndexOf_ne {l : List String} {x : String}
    (h : jsIndexOf l x ≠ -1) : x ∈ l := by
  by_contra hx
  exact h (jsIndexOf_of_not_mem hx)

theorem updateMat_eq (D : List String) (mat : List (List ℚ)) (r : Relation) :
    updateMat D mat r
      = if jsIndexOf D r.source ≠ -1 ∧ jsIndexOf D r.target ≠ -1 then
          mat.set (jsIndexOf D r.source).toNat
            ((mat.getD (jsIndexOf D r.source).toNat []).set
              (jsIndexOf D r.target).toNat r.value)
        else mat := rfl

theorem updateMat_shape {D : List String} {mat : List (List ℚ)} {n : Nat}
    (r : Relation) (hlen : mat.length = D.length)
    (hrows : ∀ row ∈ mat, row.length = n) :
    (updateMat D mat r).length = D.length
      ∧ ∀ row ∈ updateMat D mat r, row.length = n := by
  rw [updateMat_eq]
  by_cases hg : jsIndexOf D r.source ≠ -1 ∧ jsIndexOf D r.target ≠ -1
  · rw [if_pos hg]
    have hs : r.source ∈ D := mem_of_jsIndexOf_ne hg.1
    have hsi : (jsIndexOf D r.source).toNat < D.length := (jsIndexOf_spec hs).2.2.1
    refine ⟨by simp [List.length_set, hlen], ?_⟩
    intro row hrow
    rcases List.mem_or_eq_of_mem_set hrow with h | h
    · exact hrows _ h
    · subst h
      rw [List.length_set]
      exact hrows _ (getD_mem _ _ _ (by omega))
  · rw [if_neg hg]
    exact ⟨hlen, hrows⟩

theorem foldl_updateMat_shape {D : List String} {n : Nat} (rs : List Relation) :
    ∀ mat : List (List ℚ), mat.length = D.length →
      (∀ row ∈ mat, row.length = n) →
      (rs.foldl (updateMat D) mat).length = D.length
        ∧ ∀ row ∈ rs.foldl (updateMat D) mat, row.length = n := by
  induction rs with
  | nil => intro mat hlen hrows; exact ⟨hlen, hrows⟩
  | cons r rs ih =>
    intro mat hlen hrows
    obtain ⟨h1, h2⟩ := updateMat_shape r hlen hrows
    exact ih _ h1 h2

theorem cellAt_updateMat {D : List String} (hnd : D.Nodup)
    {mat : List (List ℚ)} (r : Relation) {i j : Nat}
    (hlen : mat.length = D.length)
    (hrows : ∀ row ∈ mat, row.length = D.length)
    (hs : r.source ∈ D) (ht : r.target ∈ D)
    (hi : i < D.length) (hj : j < D.length) :
    cellAt (updateMat D mat r) i j
      = if r.source = D.getD i "" ∧ r.target = D.getD j "" then r.value
        else cellAt mat i j := by
  obtain ⟨hs1, hs0, hslt, hsget⟩ := jsIndexOf_spec hs
  obtain ⟨ht1, ht0, htlt, htget⟩ := jsIndexOf_spec ht
  rw [updateMat_eq, if_pos ⟨hs1, ht1⟩]
  unfold cellAt
  by_cases hsi : (jsIndexOf D r.source).toNat = i
  · rw [hsi] at hsget hslt ⊢
    rw [getD_set_eq _ _ _ _ (by omega)]
    have hrowlen : (mat.getD i []).length = D.length :=
      hrows _ (getD_mem _ _ _ (by omega))
    by_cases hti : (jsIndexOf D r.target).toNat = j
    · rw [hti] at htget ⊢
      rw [getD_set_eq _ _ _ _ (by omega)]
      rw [if_pos ⟨hsget.symm, htget.symm⟩]
    · rw [getD_set_ne _ _ _ hti]
      rw [if_neg ?_]
      rintro ⟨-, hteq⟩
      apply hti
      have : jsIndexOf D r.target = j := by
        rw [hteq]
        exact jsIndexOf_getD hnd j hj
      omega
  · rw [getD_set_ne _ _ _ hsi]
    rw [if_neg ?_]
    rintro ⟨hseq, -⟩
    apply hsi
    have : jsIndexOf D r.source = i := by
      rw [hseq]
      exact jsIndexOf_getD hnd i hi
    omega

theorem cellAt_foldl_updateMat {D : List String} (hnd : D.Nodup) {i j : Nat}
    (hi : i < D.length) (hj : j < D.length) (rs : List Relation) :
    ∀ mat : List (List ℚ), mat.length = D.length →
      (∀ row ∈ mat, row.length = D.length) →
      (∀ r ∈ rs, r.source ∈ D ∧ r.target ∈ D) →
      cellAt (rs.foldl (updateMat D) mat) i j
        = rs.foldl
            (fun acc r =>
              if r.source = D.getD i "" ∧ r.target = D.getD j "" then r.value
              else acc)
            (cellAt mat i j) := by
  induction rs with
  | nil => intro mat _ _ _; rfl
  | cons r rs ih =>
    intro mat hlen hrows hmem
    obtain ⟨h1, h2⟩ := updateMat_shape r hlen hrows
    rw [List.foldl_cons, List.foldl_cons,
      ih _ h1 h2 (fun r' hr' => hmem r' (List.mem_cons_of_mem _ hr')),
      cellAt_updateMat hnd r hlen hrows (hmem r (List.mem_cons_self _ _)).1
        (hmem r (List.mem_cons_self _ _)).2 hi hj]

theorem initCells_length (D : List String) :
    (D.map fun _ => List.replicate D.length (0 : ℚ)).length = D.length := by
  simp

theorem initCells_rows (D : List String) :
    ∀ row ∈ D.map fun _ => List.replicate D.length (0 : ℚ),
      row.length = D.length := by
  intro row hrow
  obtain ⟨d, -, hd⟩ := List.mem_map.mp hrow
  rw [← hd]
  simp

theorem cellAt_initCells {D : List String} {i j : Nat} (hi : i < D.length) :
    cellAt (D.map fun _ => List.replicate D.length (0 : ℚ)) i j = 0 := by
  unfold cellAt
  have h1 : (D.map fun _ => List.replicate D.length (0 : ℚ)).getD i []
      = List.replicate D.length (0 : ℚ) := by
    have hi' : i < (D.map fun _ => List.replicate D.length (0 : ℚ)).length := by
      simpa using hi
    have := getD_mem (D.map fun _ => List.replicate D.length (0 : ℚ)) i [] hi'
    obtain ⟨d, -, hd⟩ := List.mem_map.mp this
    exact hd.symm
  rw [h1]
  by_cases hj : j < D.length
  · simp [List.getD, List.getElem?_replicate, hj]
  · rw [getD_of_length_le _ _ _ (by simpa using hj)]

theorem mkCells_shape (data : List Relation) :
    (mkCells data).length = (domainsOf data).length
      ∧ ∀ row ∈ mkCells data, row.length = (domainsOf data).length := by
  unfold mkCells
  exact foldl_updateMat_shape data _ (initCells_length _) (initCells_rows _)

theorem cellAt_mkCells (data : List Relation) {i j : Nat}
    (hi : i < (domainsOf data).length) (hj : j < (domainsOf data).length) :
    cellAt (mkCells data) i j
      = lastPairValue data ((domainsOf data).getD i "")
          ((domainsOf data).getD j "") := by
  unfold mkCells lastPairValue
  rw [cellAt_foldl_updateMat (nodup_domainsOf data) hi hj data _
    (initCells_length _) (initCells_rows _)
    (fun r hr => ⟨source_mem_domainsOf hr, target_mem_domainsOf hr⟩)]
  rw [cellAt_initCells hi]

theorem entry_foldl_updateMat {D : List String} (rs : List Relation) :
    ∀ (mat : List (List ℚ)) (row : List ℚ) (w : ℚ),
      row ∈ rs.foldl (updateMat D) mat → w ∈ row →
      (∃ row₀ ∈ mat, w ∈ row₀) ∨ w ∈ values rs := by
  induction rs with
  | nil =>
    intro mat row w hrow hw
    exact Or.inl ⟨row, hrow, hw⟩
  | cons r rs ih =>
    intro mat row w hrow hw
    rcases ih (updateMat D mat r) row w hrow hw with ⟨row₀, hrow₀, hw₀⟩ | hmem
    · rw [updateMat_eq] at hrow₀
      by_cases hg : jsIndexOf D r.source ≠ -1 ∧ jsIndexOf D r.target ≠ -1
      · rw [if_pos hg] at hrow₀
        rcases List.mem_or_eq_of_mem_set hrow₀ with h | h
        · exact Or.inl ⟨row₀, h, hw₀⟩
        · subst h
          rcases List.mem_or_eq_of_mem_set hw₀ with h' | h'
          · by_cases hsi : (jsIndexOf D r.source).toNat < mat.length
            · exact Or.inl ⟨_, getD_mem _ _ _ hsi, h'⟩
            · rw [getD_of_length_le _ _ _ (by omega)] at h'
              cases h'
          · subst h'
            exact Or.inr (by simp [values])
      · rw [if_neg hg] at hrow₀
        exact Or.inl ⟨row₀, hrow₀, hw₀⟩
    · exact Or.inr (by simp [values] at hmem ⊢; exact Or.inr hmem)

theorem nonzero_entry_mem_values {data : List Relation} {row : List ℚ} {w : ℚ}
    (hrow : row ∈ mkCells data) (hw : w ∈ row) (hw0 : w ≠ 0) :
    w ∈ values data := by
  unfold mkCells at hrow
  rcases entry_foldl_updateMat data _ row w hrow hw with ⟨row₀, hrow₀, hw₀⟩ | h
  · obtain ⟨d, -, hd⟩ := List.mem_map.mp hrow₀
    rw [← hd] at hw₀
    exact absurd (List.eq_of_mem_replicate hw₀) hw0
  · exact h

/-! ### Helper lemmas: the renderer -/

theorem render_of_empty {data : List Relation}
    (h : data = [] ∨ domainsOf data = []) : render data = Rendered.emptyState := by
  unfold render
  rw [if_pos h]

theorem render_table_inv {data : List Relation} {D : List String}
    {cells : List (List ℚ)} (h : render data = Rendered.table D cells) :
    D = domainsOf data ∧ cells = mkCells data ∧ data ≠ [] := by
  unfold render at h
  by_cases hg : data = [] ∨ domainsOf data = []
  · rw [if_pos hg] at h
    cases h
  · rw [if_neg hg] at h
    push_neg at hg
    injection h with h1 h2
    exact ⟨h1.symm, h2.symm, hg.1⟩

theorem self_mem_cellCalls (v : ℚ) : v ∈ cellCalls v := by
  unfold cellCalls
  simp

theorem cell_mem_intensityCalls {data : List Relation} {D : List String}
    {cells : List (List ℚ)} (h : render data = Rendered.table D cells)
    {row : List ℚ} {v : ℚ} (hrow : row ∈ cells) (hv : v ∈ row) :
    v ∈ intensityCalls data := by
  unfold intensityCalls
  rw [h]
  exact List.mem_flatMap.mpr ⟨row, hrow,
    List.mem_flatMap.mpr ⟨v, hv, self_mem_cellCalls v⟩⟩

theorem intensityCalls_nonempty_data {data : List Relation} {v : ℚ}
    (h : v ∈ intensityCalls data) : data ≠ [] := by
  intro hdata
  rw [intensityCalls, render_of_empty (Or.inl hdata)] at h
  cases h

theorem mem_cellColorCalls_inv {data : List Relation} {v : ℚ}
    (h : v ∈ cellColorCalls data) : v ≠ 0 ∧ v ∈ values data := by
  unfold cellColorCalls at h
  cases hrender : render data with
  | emptyState => rw [hrender] at h; cases h
  | table D cells =>
    rw [hrender] at h
    obtain ⟨-, hcells, -⟩ := render_table_inv hrender
    obtain ⟨row, hrow, hv⟩ := List.mem_flatMap.mp h
    obtain ⟨hvrow, hv0⟩ := List.mem_filter.mp hv
    have hv0' : v ≠ 0 := by simpa using hv0
    subst hcells
    exact ⟨hv0', nonzero_entry_mem_values hrow hvrow hv0'⟩

theorem foldl_overwrite_of_no_match (s t : String) :
    ∀ (data : List Relation) (a : ℚ),
      (∀ r ∈ data, ¬(r.source = s ∧ r.target = t)) →
      data.foldl
          (fun acc r => if r.source = s ∧ r.target = t then r.value else acc) a
        = a := by
  intro data
  induction data with
  | nil => intro a _; rfl
  | cons r rs ih =>
    intro a h
    rw [List.foldl_cons, if_neg (h r (List.mem_cons_self _ _))]
    exact ih a fun r' hr' => h r' (List.mem_cons_of_mem _ hr')

theorem lastPairValue_of_no_match {data : List Relation} {s t : String}
    (h : ∀ r ∈ data, ¬(r.source = s ∧ r.target = t)) :
    lastPairValue data s t = 0 :=
  foldl_overwrite_of_no_match s t data 0 h

theorem updateMat_eq_unguarded {D : List String} {mat : List (List ℚ)}
    {r : Relation} (h1 : jsIndexOf D r.source ≠ -1)
    (h2 : jsIndexOf D r.target ≠ -1) :
    updateMat D mat r = updateMatUnguarded D mat r := by
  rw [updateMat_eq, if_pos ⟨h1, h2⟩]
  rfl

theorem values_ne_nil {data : List Relation} (h : data ≠ []) :
    values data ≠ [] := by
  simpa [values] using h

/-! ## Claim theorems -/

/-- C1 counterexample: on `[{A,B,0}, {A,C,7}]` the displayed non-zero values
are the singleton `{7}`, so the spec's reference definition gives
`cellIntensity(7) = 50`; the code's `getColorIntensity`, whose min/max range
over ALL record values (here including the 0), returns 100 instead. -/
theorem getColorIntensity_ne_specCellIntensity :
    getColorIntensity [⟨"A", "B", 0⟩, ⟨"A", "C", 7⟩] 7 = some 100
      ∧ specCellIntensity [⟨"A", "B", 0⟩, ⟨"A", "C", 7⟩] 7 = some 50
      ∧ (100 : ℚ) ≠ 50 := by
  refine ⟨?_, ?_, by norm_num⟩
  · norm_num [getColorIntensity, values, jsMax, jsMin, List.foldl, max_def,
      min_def]
  · have hd : displayedNonZero [⟨"A", "B", 0⟩, ⟨"A", "C", 7⟩] = [7] := by decide
    simp [specCellIntensity, hd, jsMax, jsMin]

/-- C1 (amended): `getColorIntensity` computes min and max over ALL record
values of `data` (0-valued and overwritten records included), not over the
displayed non-zero values; on a range of 0 it returns 50, otherwise
`(value - min) / (max - min) * 100`.  When every record value equals `v`
(in particular a single record), `getColorIntensity(v)` is 50. -/
theorem getColorIntensity_allRecordValues (data : List Relation) (v : ℚ)
    (h : data ≠ []) :
    ∃ M m, jsMax (values data) = some M ∧ jsMin (values data) = some m
      ∧ (∀ w ∈ values data, m ≤ w ∧ w ≤ M)
      ∧ getColorIntensity data v
          = some (if M - m = 0 then 50 else ((v - m) / (M - m)) * 100)
      ∧ ((∀ w ∈ values data, w = v) → getColorIntensity data v = some 50) := by
  have hne := values_ne_nil h
  obtain ⟨M, hM, hMmem, hMub⟩ := jsMax_spec hne
  obtain ⟨m, hm, hmmem, hmlb⟩ := jsMin_spec hne
  refine ⟨M, m, hM, hm, fun w hw => ⟨hmlb w hw, hMub w hw⟩,
    getColorIntensity_eq hM hm v, ?_⟩
  intro hall
  rw [getColorIntensity_eq hM hm v, if_pos (by rw [hall M hMmem, hall m hmmem]; ring)]

theorem getColorIntensity_allRecordValues_witness :
    ∃ M m, jsMax (values [⟨"A", "B", 3⟩]) = some M
      ∧ jsMin (values [⟨"A", "B", 3⟩]) = some m
      ∧ (∀ w ∈ values [⟨"A", "B", 3⟩], m ≤ w ∧ w ≤ M)
      ∧ getColorIntensity [⟨"A", "B", 3⟩] 3
          = some (if M - m = 0 then 50 else ((3 - m) / (M - m)) * 100)
      ∧ ((∀ w ∈ values [⟨"A", "B", 3⟩], w = 3) →
          getColorIntensity [⟨"A", "B", 3⟩] 3 = some 50) :=
  getColorIntensity_allRecordValues [⟨"A", "B", 3⟩] 3 (by decide)

/-- C2 counterexample: rendering `[{A,B,5}]` produces a 2×2 matrix with three
0-valued cells, and `getTextColor` invokes `getColorIntensity` on every cell,
so the value 0 IS passed to the intensity computation. -/
theorem zero_mem_intensityCalls :
    (0 : ℚ) ∈ intensityCalls [⟨"A", "B", 5⟩] := by decide

/-- C2 (amended): the background-color path (`getCellColor`) does bypass the
intensity computation on 0-valued cells and renders them with the neutral
gray class, but the text-color path (`getTextColor`) invokes
`getColorIntensity` on every rendered cell value, 0-valued cells included. -/
theorem zero_cell_bypass_only_in_getCellColor (data : List Relation) :
    (0 : ℚ) ∉ cellColorCalls data
      ∧ getCellColor data 0 = "bg-gray-100 dark:bg-gray-800"
      ∧ (∀ D cells, render data = Rendered.table D cells →
          ∀ row ∈ cells, ∀ v ∈ row, v ∈ intensityCalls data) := by
  refine ⟨?_, ?_, ?_⟩
  · intro h
    exact (mem_cellColorCalls_inv h).1 rfl
  · rw [getCellColor, if_pos rfl]
  · intro D cells hrender row hrow v hv
    exact cell_mem_intensityCalls hrender hrow hv

theorem zero_cell_bypass_only_in_getCellColor_witness :
    (0 : ℚ) ∉ cellColorCalls [⟨"A", "B", 5⟩]
      ∧ getCellColor [⟨"A", "B", 5⟩] 0 = "bg-gray-100 dark:bg-gray-800"
      ∧ (5 : ℚ) ∈ intensityCalls [⟨"A", "B", 5⟩] := by
  obtain ⟨h1, h2, h3⟩ := zero_cell_bypass_only_in_getCellColor [⟨"A", "B", 5⟩]
  exact ⟨h1, h2,
    h3 ["A", "B"] [[0, 5], [0, 0]] (by decide) [0, 5] (by decide) 5 (by decide)⟩

/-- C3 counterexample: rendering `[{A,B,5}, {B,A,10}]` passes the 0 of an
unset diagonal cell to `getColorIntensity` (via `getTextColor`), and the
returned intensity is −100, outside [0, 100]. -/
theorem intensity_out_of_range_on_zero_cell :
    (0 : ℚ) ∈ intensityCalls [⟨"A", "B", 5⟩, ⟨"B", "A", 10⟩]
      ∧ getColorIntensity [⟨"A", "B", 5⟩, ⟨"B", "A", 10⟩] 0 = some (-100)
      ∧ (-100 : ℚ) < 0 := by
  refine ⟨by decide, ?_, by norm_num⟩
  norm_num [getColorIntensity, values, jsMax, jsMin, List.foldl, max_def,
    min_def]

/-- C3 (amended): every value the renderer passes to `getColorIntensity`
through `getCellColor` — i.e. every non-zero cell value of the rendered
matrix — yields an intensity in [0, 100]; the values passed through
`getTextColor` for unset (0-valued) cells can fall outside that interval. -/
theorem cellColorCalls_intensity_in_range (data : List Relation) (v : ℚ)
    (h : v ∈ cellColorCalls data) :
    ∃ i, getColorIntensity data v = some i ∧ 0 ≤ i ∧ i ≤ 100 :=
  getColorIntensity_bounds (mem_cellColorCalls_inv h).2

theorem cellColorCalls_intensity_in_range_witness :
    ∃ i, getColorIntensity [⟨"A", "B", 5⟩] 5 = some i ∧ 0 ≤ i ∧ i ≤ 100 :=
  cellColorCalls_intensity_in_range [⟨"A", "B", 5⟩] 5 (by decide)

/-- C4: the fill loop writes later records over earlier ones for the same
`(source, target)` pair — every cell equals the value of the LAST record in
list order carrying that pair (0 when none does) — and on the concrete input
`[{Performance,Business,12}, {Business,Services,15}, {Performance,Business,20}]`
the output is `domains = [Performance, Business, Services]`,
`cells[0][1] = 20`, `cells[1][2] = 15`, all other cells 0. -/
theorem mkCells_last_write_wins :
    (∀ (data : List Relation) (i j : Nat),
      i < (domainsOf data).length → j < (domainsOf data).length →
      cellAt (mkCells data) i j
        = lastPairValue data ((domainsOf data).getD i "")
            ((domainsOf data).getD j ""))
    ∧ buildMatrix [⟨"Performance", "Business", 12⟩,
        ⟨"Business", "Services", 15⟩, ⟨"Performance", "Business", 20⟩]
      = ⟨["Performance", "Business", "Services"],
         [[0, 20, 0], [0, 0, 15], [0, 0, 0]]⟩ :=
  ⟨fun data i j hi hj => cellAt_mkCells data hi hj, by decide⟩

theorem mkCells_last_write_wins_witness :
    cellAt (mkCells [⟨"Performance", "Business", 12⟩,
        ⟨"Business", "Services", 15⟩, ⟨"Performance", "Business", 20⟩]) 0 1
      = lastPairValue [⟨"Performance", "Business", 12⟩,
          ⟨"Business", "Services", 15⟩, ⟨"Performance", "Business", 20⟩]
          ((domainsOf [⟨"Performance", "Business", 12⟩,
            ⟨"Business", "Services", 15⟩, ⟨"Performance", "Business", 20⟩]).getD 0 "")
          ((domainsOf [⟨"Performance", "Business", 12⟩,
            ⟨"Business", "Services", 15⟩, ⟨"Performance", "Business", 20⟩]).getD 1 "") :=
  mkCells_last_write_wins.1 _ 0 1 (by decide) (by decide)

/-- C5: `buildMatrix(R).domains` is exactly the first-seen deduplication of
the left-to-right scan of R that visits each record's source before its
target: it has no duplicates and contains a name iff the name occurs as a
source or target in R. -/
theorem domainsOf_first_seen_exactly_once (data : List Relation) :
    domainsOf data = firstSeenDedup (scanList data)
      ∧ (domainsOf data).Nodup
      ∧ ∀ x, x ∈ domainsOf data ↔ x ∈ scanList data :=
  ⟨domainsOf_eq_firstSeenDedup data, nodup_domainsOf data,
    fun _ => mem_domainsOf⟩

/-- C6: `buildMatrix(R).cells` is square of side `len(domains)`, and every
cell that no record addresses is 0. -/
theorem mkCells_square_and_zero_filled (data : List Relation) :
    (mkCells data).length = (domainsOf data).length
      ∧ (∀ row ∈ mkCells data, row.length = (domainsOf data).length)
      ∧ ∀ i j, i < (domainsOf data).length → j < (domainsOf data).length →
          (∀ r ∈ data, ¬(r.source = (domainsOf data).getD i ""
            ∧ r.target = (domainsOf data).getD j "")) →
          cellAt (mkCells data) i j = 0 := by
  refine ⟨(mkCells_shape data).1, (mkCells_shape data).2, ?_⟩
  intro i j hi hj hnone
  rw [cellAt_mkCells data hi hj]
  exact lastPairValue_of_no_match hnone

theorem mkCells_square_and_zero_filled_witness :
    (mkCells [⟨"A", "B", 5⟩]).length = (domainsOf [⟨"A", "B", 5⟩]).length
      ∧ ([(0 : ℚ), 5]).length = (domainsOf [⟨"A", "B", 5⟩]).length
      ∧ cellAt (mkCells [⟨"A", "B", 5⟩]) 1 1 = 0 := by
  obtain ⟨h1, h2, h3⟩ := mkCells_square_and_zero_filled [⟨"A", "B", 5⟩]
  exact ⟨h1, h2 [0, 5] (by decide), h3 1 1 (by decide) (by decide) (by decide)⟩

/-- C7: the empty record list yields the empty domain list and the empty
matrix — no error — and the component returns its explicit empty state
instead of a table. -/
theorem buildMatrix_empty_is_empty_state :
    buildMatrix [] = ⟨[], []⟩ ∧ render [] = Rendered.emptyState := by decide

/-- C8: `getColorIntensity` never divides by zero: whenever the computed max
equals the computed min (range 0) the division branch is not taken and the
fixed value 50 is returned; the division only happens with a non-zero range,
and an empty value list short-circuits to the NaN result with no division. -/
theorem getColorIntensity_zero_range_guard (data : List Relation) (v : ℚ) :
    (values data = [] → getColorIntensity data v = none)
      ∧ ∀ M m, jsMax (values data) = some M → jsMin (values data) = some m →
          ((M - m = 0 → getColorIntensity data v = some 50)
            ∧ (M - m ≠ 0 →
                getColorIntensity data v = some (((v - m) / (M - m)) * 100))) := by
  refine ⟨fun h => getColorIntensity_of_empty h v, ?_⟩
  intro M m hM hm
  rw [getColorIntensity_eq hM hm v]
  constructor
  · intro h0
    rw [if_pos h0]
  · intro h0
    rw [if_neg h0]

theorem getColorIntensity_zero_range_guard_witness :
    getColorIntensity [⟨"A", "B", 3⟩, ⟨"A", "C", 3⟩] 5 = some 50 :=
  (((getColorIntensity_zero_range_guard [⟨"A", "B", 3⟩, ⟨"A", "C", 3⟩] 5).2
    3 3 (by decide) (by decide)).1) (by norm_num)

/-- C9: the `!== -1` guard of the fill loop always holds — every record's
source and target are found in the domain list — so no record is dropped:
the guarded fill produces exactly the same matrix as the unguarded one. -/
theorem fill_guard_always_holds (data : List Relation) :
    (∀ r ∈ data, jsIndexOf (domainsOf data) r.source ≠ -1
      ∧ jsIndexOf (domainsOf data) r.target ≠ -1)
      ∧ mkCells data = mkCellsUnguarded data := by
  have hguard : ∀ r ∈ data, jsIndexOf (domainsOf data) r.source ≠ -1
      ∧ jsIndexOf (domainsOf data) r.target ≠ -1 := fun r hr =>
    ⟨(jsIndexOf_spec (source_mem_domainsOf hr)).1,
     (jsIndexOf_spec (target_mem_domainsOf hr)).1⟩
  refine ⟨hguard, ?_⟩
  unfold mkCells mkCellsUnguarded
  apply List.foldl_ext
  intro mat r hr
  exact updateMat_eq_unguarded (hguard r hr).1 (hguard r hr).2

theorem fill_guard_always_holds_witness :
    (jsIndexOf (domainsOf [⟨"A", "B", 5⟩]) "A" ≠ -1
      ∧ jsIndexOf (domainsOf [⟨"A", "B", 5⟩]) "B" ≠ -1)
      ∧ mkCells [⟨"A", "B", 5⟩] = mkCellsUnguarded [⟨"A", "B", 5⟩] := by
  obtain ⟨h1, h2⟩ := fill_guard_always_holds [⟨"A", "B", 5⟩]
  exact ⟨h1 ⟨"A", "B", 5⟩ (by decide), h2⟩

/-- C10: `getColorIntensity` is only ever invoked with a non-empty `data`
list — the empty-state guard returns before any cell renders — so its
min/max reductions always range over a non-empty value list and produce
finite bounds (the empty-spread sentinel never occurs). -/
theorem intensityCalls_only_on_nonempty_data (data : List Relation) (v : ℚ)
    (h : v ∈ intensityCalls data) :
    data ≠ [] ∧ values data ≠ []
      ∧ ∃ M m, jsMax (values data) = some M ∧ jsMin (values data) = some m
          ∧ getColorIntensity data v
              = some (if M - m = 0 then 50 else ((v - m) / (M - m)) * 100) := by
  have hdata := intensityCalls_nonempty_data h
  have hne := values_ne_nil hdata
  obtain ⟨M, hM, -, -⟩ := jsMax_spec hne
  obtain ⟨m, hm, -, -⟩ := jsMin_spec hne
  exact ⟨hdata, hne, M, m, hM, hm, getColorIntensity_eq hM hm v⟩

theorem intensityCalls_only_on_nonempty_data_witness :
    [⟨"A", "B", 5⟩] ≠ ([] : List Relation)
      ∧ values [⟨"A", "B", 5⟩] ≠ []
      ∧ ∃ M m, jsMax (values [⟨"A", "B", 5⟩]) = some M
          ∧ jsMin (values [⟨"A", "B", 5⟩]) = some m
          ∧ getColorIntensity [⟨"A", "B", 5⟩] 5
              = some (if M - m = 0 then 50 else ((5 - m) / (M - m)) * 100) :=
  intensityCalls_only_on_nonempty_data [⟨"A", "B", 5⟩] 5 (by decide)

end DomainMatrix
